import Mathlib

/-!
Verification development for the WebScrawler-as-RAG-LLM repository.

The development shallowly embeds the retrieval pipeline of `src/rag_llm.py`
and the sitemap resolver of `src/app.py`:

* the chunker (`chunk_text`, which instantiates langchain's
  `RecursiveCharacterTextSplitter` with `chunk_size = 500`,
  `chunk_overlap = 200`, separators `["\n\n", "\n", " ", ""]`, the library
  defaults `keep_separator = True` and `strip_whitespace = True`);
* the build phase (`get_embeddings`, `fetch_and_store_scraped_data`);
* the query phase (`retrieve_and_rerank` over a flat Euclidean index);
* the sitemap resolver (`fetch_sitemap_from_robots`, `fetch_sitemap_links`).

External collaborators are modelled as oracles: the Bedrock embedding
service is a function `String → ℕ → Option Vec` giving the result of each
retry attempt, HTTP responses are `Option`/inductive values, and the cosine
similarity computed by sklearn is an abstract function `Vec → Vec → ℚ`
(for the concrete witnesses it is instantiated with the rational dot
product, which coincides with cosine similarity on unit vectors).
Machine floats are modelled as exact rationals; numpy's float32 cast in
`fetch_and_store_scraped_data` is modelled as the identity.
Text is modelled as `String` / `List Char`; Python string primitives
(`strip`, `lower`, `split`, `startswith`, `endswith`, negative indexing)
are re-implemented faithfully below.
-/

/-- The whitespace characters stripped by Python's `str.strip()`. -/
def isPySpace (c : Char) : Bool :=
  c = ' ' || c = '\t' || c = '\n' || c = '\r' || c = '\x0b' || c = '\x0c'

/-- Python `str.strip()` on a list of characters. -/
def pyStripL (l : List Char) : List Char :=
  ((l.dropWhile isPySpace).reverse.dropWhile isPySpace).reverse

/-- Fuel-indexed core of Python `str.split(sep)` for a non-empty literal
separator (also the splitting step of `re.split` on an escaped separator).
The fuel-exhausted branch is unreachable when `fuel ≥ text.length`. -/
def splitOnSepF (sep : List Char) : ℕ → List Char → List (List Char)
  | 0, text => [text]
  | _ + 1, [] => [[]]
  | fuel + 1, c :: rest =>
    if sep ≠ [] ∧ sep.isPrefixOf (c :: rest) then
      [] :: splitOnSepF sep fuel ((c :: rest).drop sep.length)
    else
      match splitOnSepF sep fuel rest with
      | [] => [[c]]
      | p :: ps => (c :: p) :: ps

/-- Python `str.split(sep)` for a non-empty literal separator. -/
def splitOnSep (sep text : List Char) : List (List Char) :=
  splitOnSepF sep text.length text

/-- Whether `sep` occurs as a contiguous subsequence of `text`
(`re.search` on the escaped separator, as a Boolean). -/
def occursIn (sep : List Char) : List Char → Bool
  | [] => sep.isEmpty
  | c :: rest => sep.isPrefixOf (c :: rest) || occursIn sep rest

/-- langchain `_split_text_with_regex` with `keep_separator = True`:
split on the separator, re-attach the separator to the front of each
following piece, and drop empty pieces. -/
def splitWithSep (sep text : List Char) : List (List Char) :=
  match splitOnSep sep text with
  | [] => []
  | p :: ps => (p :: ps.map (fun q => sep ++ q)).filter (· ≠ [])

/-- langchain `TextSplitter._join_docs` with the empty join separator
(which is what `keep_separator = True` produces): concatenate, strip
whitespace, and return `none` for the empty result. -/
def joinDocs (docs : List (List Char)) : Option (List Char) :=
  let t := pyStripL docs.flatten
  if t = [] then none else some t

/-- The pop-loop inside langchain `TextSplitter._merge_splits`: drop leading
accumulated pieces while the running total exceeds the overlap, or while the
next piece would overflow the chunk size.  `total` is maintained equal to the
sum of the lengths of the accumulated pieces (separator length is 0). -/
def popLoop (cs co dlen : ℕ) : List (List Char) → ℕ → List (List Char) × ℕ
  | [], total => ([], total)
  | c :: rest, total =>
    if total > co ∨ (total + dlen > cs ∧ total > 0) then
      popLoop cs co dlen rest (total - c.length)
    else (c :: rest, total)

/-- State of the `_merge_splits` loop: emitted docs, accumulated pieces
(in order), and the running total length of the accumulated pieces. -/
structure MergeState where
  docs : List (List Char)
  current : List (List Char)
  total : ℕ

/-- One iteration of the langchain `_merge_splits` loop (join separator
is empty because `keep_separator = True`). -/
def mergeStep (cs co : ℕ) (st : MergeState) (d : List Char) : MergeState :=
  let dlen := d.length
  if st.total + dlen > cs then
    if st.current = [] then
      { st with current := [d], total := dlen }
    else
      let docs' := st.docs ++ (joinDocs st.current).toList
      let pair := popLoop cs co dlen st.current st.total
      { docs := docs', current := pair.1 ++ [d], total := pair.2 + dlen }
  else
    { st with current := st.current ++ [d], total := st.total + dlen }

/-- langchain `TextSplitter._merge_splits` with empty join separator. -/
def mergeSplits (cs co : ℕ) (splits : List (List Char)) : List (List Char) :=
  (splits.foldl (mergeStep cs co) ⟨[], [], 0⟩).docs ++
    (joinDocs (splits.foldl (mergeStep cs co) ⟨[], [], 0⟩).current).toList

/-- Separator selection at the top of langchain
`RecursiveCharacterTextSplitter._split_text`: pick the first separator that
is empty or occurs in the text (falling back to the last separator), and
return it together with the remaining separators. -/
def chooseSep : List (List Char) → List Char → List Char × List (List Char)
  | [], _ => ([], [])
  | s :: rest, text =>
    if s = [] then ([], [])
    else if occursIn s text then (s, rest)
    else if rest = [] then (s, [])
    else chooseSep rest text

/-- The split-processing loop of `_split_text`: short splits are accumulated
and merged; an oversized split flushes the accumulator and is either kept
verbatim (no separators left) or split recursively via `rec`. -/
def goSplits (cs co : ℕ) (newSeps : List (List Char))
    (rec : List Char → List (List Char)) :
    List (List Char) → List (List Char) → List (List Char)
  | [], good => if good = [] then [] else mergeSplits cs co good
  | s :: rest, good =>
    if s.length < cs then goSplits cs co newSeps rec rest (good ++ [s])
    else
      (if good = [] then [] else mergeSplits cs co good) ++
        (if newSeps = [] then [s] else rec s) ++
        goSplits cs co newSeps rec rest []

/-- langchain `RecursiveCharacterTextSplitter._split_text`, indexed by fuel
bounding the recursion depth (the separator list shrinks strictly at each
recursive call, so `fuel = separators.length` is always sufficient and the
fuel-exhausted branch is unreachable from `chunk_text`). -/
def splitTextFuel (cs co : ℕ) : ℕ → List (List Char) → List Char → List (List Char)
  | 0, _, text => [text]
  | fuel + 1, seps, text =>
    let sc := chooseSep seps text
    let splits := if sc.1 = [] then text.map (fun c => [c]) else splitWithSep sc.1 text
    goSplits cs co sc.2 (fun s => splitTextFuel cs co fuel sc.2 s) splits []

/-- The separator list `["\n\n", "\n", " ", ""]` passed in `chunk_text`. -/
def pySeps : List (List Char) := [['\n', '\n'], ['\n'], [' '], []]

/-- `chunk_text` from `src/rag_llm.py`: split text with langchain's
`RecursiveCharacterTextSplitter` at `chunk_size = 500`, `overlap = 200`. -/
def chunk_text (text : String) : List String :=
  (splitTextFuel 500 200 pySeps.length pySeps text.data).map String.mk

/-- Reconstruction of the input claimed by the spec: concatenate the chunks
in order, removing the declared overlap from every chunk after the first. -/
def reconstructOverlap (ov : ℕ) : List String → String
  | [] => ""
  | c :: rest => c ++ String.join (rest.map (fun s => s.drop ov))

/-- All characters of a character list are Python whitespace. -/
abbrev allWs (l : List Char) : Prop := ∀ c ∈ l, isPySpace c = true

/-- Sum of the lengths of a list of character lists (the quantity langchain
tracks as `total` in `_merge_splits`). -/
def sumLen (l : List (List Char)) : ℕ := (l.map List.length).sum

/-! ### Embedding vectors and the flat Euclidean index (faiss `IndexFlatL2`) -/

/-- Embedding vectors; machine floats are modelled as exact rationals. -/
abbrev Vec := List ℚ

/-- Squared Euclidean distance between two vectors (the ranking quantity of
faiss `IndexFlatL2`; the square root is monotone, so ranking by the squared
distance is ranking by Euclidean distance). -/
def sqDist (a b : Vec) : ℚ := (List.zipWith (fun x y => (x - y) * (x - y)) a b).sum

/-- Stable insertion into an ascending-by-key list: the new element goes
before the first element whose key is not smaller. -/
def insertAsc {α : Type} (key : α → ℚ) (a : α) : List α → List α
  | [] => [a]
  | b :: l => if key a ≤ key b then a :: b :: l else b :: insertAsc key a l

/-- Stable ascending sort by a rational key. -/
def sortAscBy {α : Type} (key : α → ℚ) : List α → List α
  | [] => []
  | a :: l => insertAsc key a (sortAscBy key l)

/-- Stable insertion into a descending-by-key list: the new element goes
before the first element whose key is not larger, so that among equal keys
earlier elements stay first (Python's `sorted` with `reverse=True` is
stable, and a stable non-increasing sort is unique as a function). -/
def insertDesc {α : Type} (key : α → ℚ) (a : α) : List α → List α
  | [] => [a]
  | b :: l => if key b ≤ key a then a :: b :: l else b :: insertDesc key a l

/-- Stable descending sort by a rational key, modelling
`sorted(xs, key=..., reverse=True)`. -/
def sortDescBy {α : Type} (key : α → ℚ) : List α → List α
  | [] => []
  | a :: l => insertDesc key a (sortDescBy key l)

/-- faiss `IndexFlatL2.search` on an index holding `vecs` (in insertion
order): the positions of the `k` nearest vectors to the query by squared
Euclidean distance, ascending; when the index holds fewer than `k` vectors
the result is padded with the sentinel position `-1`, exactly as faiss pads
its result.  Tie order among equal distances is fixed to insertion order
(faiss leaves it unspecified; no claim depends on it). -/
def faissSearch (vecs : List Vec) (q : Vec) (k : ℕ) : List ℤ :=
  let key : ℕ → ℚ := fun i => sqDist (vecs.getD i []) q
  let top := ((sortAscBy key (List.range vecs.length)).take k).map (fun i => (i : ℤ))
  top ++ List.replicate (k - top.length) (-1)

/-! ### Data model: scraped pages and indexed metadata -/

/-- A scraped page record as produced by `scrape_page` in `src/app.py`:
either url/title/description/content, or a record tagged with an error. -/
structure PageData where
  url : String
  title : String
  description : String
  content : String
  error : Option String := none
deriving DecidableEq

/-- One entry of the parallel metadata list built by
`fetch_and_store_scraped_data`; `similarity` models the `'similarity'` key
that `retrieve_and_rerank` writes into the shared dict (absent ↦ `none`). -/
structure Doc where
  url : String
  title : String
  description : String
  content : String
  embedding : Vec
  similarity : Option ℚ := none
deriving DecidableEq

/-- Write the `'similarity'` key of a metadata dict. -/
def setSim (d : Doc) (s : ℚ) : Doc := { d with similarity := some s }

/-- Read the `'similarity'` key of a metadata dict (all docs compared by the
code have the key set; the default is irrelevant). -/
def getSim (d : Doc) : ℚ := d.similarity.getD 0

/-- Erase the `'similarity'` key: the projection of a metadata dict onto the
fields present at build time. -/
def clearSim (d : Doc) : Doc := { d with similarity := none }

/-- A default metadata entry, used only as the `getD` fallback. -/
def emptyDoc : Doc := ⟨"", "", "", "", [], none⟩

/-! ### Build phase (`get_embeddings`, `fetch_and_store_scraped_data`) -/

/-- The message of the exception raised by `get_embeddings` when all three
attempts fail. -/
def embedFailMsg : String := "Failed to fetch embeddings after retries."

/-- `get_embeddings` from `src/rag_llm.py`: call the embedding service up to
3 times and raise after three failures.  The Bedrock service is the oracle
`svc text attempt`; `time.sleep(2)` has no observable effect and is not
modelled. -/
def get_embeddings (svc : String → ℕ → Option Vec) (text : String) : Except String Vec :=
  match svc text 0 with
  | some v => .ok v
  | none =>
    match svc text 1 with
    | some v => .ok v
    | none =>
      match svc text 2 with
      | some v => .ok v
      | none => .error embedFailMsg

/-- The embedding input composed for a chunk:
`f"{data['url']} {data['title']} {data['description']} {chunk}"`. -/
def embedText (d : PageData) (chunk : String) : String :=
  d.url ++ " " ++ d.title ++ " " ++ d.description ++ " " ++ chunk

/-- The inner loop of `fetch_and_store_scraped_data`: embed each chunk of a
record and append the vector and its metadata entry to the accumulators in
lockstep; a service error aborts the whole build. -/
def processChunks (svc : String → ℕ → Option Vec) (d : PageData) :
    List String → List Vec × List Doc → Except String (List Vec × List Doc)
  | [], acc => .ok acc
  | c :: cs, acc =>
    match get_embeddings svc (embedText d c) with
    | .error e => .error e
    | .ok v =>
      processChunks svc d cs
        (acc.1 ++ [v], acc.2 ++ [⟨d.url, d.title, d.description, c, v, none⟩])

/-- The outer loop of `fetch_and_store_scraped_data`: records tagged with an
error or with falsy (empty) content are skipped
(`'error' not in data and data.get('content')`). -/
def processRecords (svc : String → ℕ → Option Vec) :
    List PageData → List Vec × List Doc → Except String (List Vec × List Doc)
  | [], acc => .ok acc
  | d :: ds, acc =>
    if d.error = none ∧ d.content ≠ "" then
      match processChunks svc d (chunk_text d.content) acc with
      | .error e => .error e
      | .ok acc' => processRecords svc ds acc'
    else processRecords svc ds acc

/-- `fetch_and_store_scraped_data` from `src/rag_llm.py`.  Returns
`(None, [])` for empty input or when no embeddings were produced, and
otherwise the index (the list of vectors added to the faiss index, in
insertion order; numpy's float32 cast is modelled as the identity on exact
rationals) together with the parallel metadata list.  The
`faiss.write_index` persistence side effect is external I/O and is not
modelled.  An embedding-service exception propagates uncaught. -/
def fetch_and_store_scraped_data (svc : String → ℕ → Option Vec)
    (scraped : List PageData) : Except String (Option (List Vec) × List Doc) :=
  if scraped = [] then .ok (none, [])
  else
    match processRecords svc scraped ([], []) with
    | .error e => .error e
    | .ok (embs, metas) =>
      if embs = [] then .ok (none, []) else .ok (some embs, metas)

/-- The caller in `src/app.py` sets `st.session_state.index` only when
`fetch_and_store_scraped_data` returns normally with a truthy index; an
uncaught exception or a `None` index leaves the session state unchanged. -/
def sessionIndexAfterBuild (prev : Option (List Vec))
    (r : Except String (Option (List Vec) × List Doc)) : Option (List Vec) :=
  match r with
  | .error _ => prev
  | .ok (none, _) => prev
  | .ok (some idx, _) => some idx

/-! ### Query phase (`retrieve_and_rerank`) -/

/-- Resolve a Python list index of a list of length `len`: nonnegative
in-range indices stand for themselves, negative indices count from the end
(`metadata[-1]` is the last entry), and anything else raises `IndexError`
(`none`). -/
def pyResolve (len : ℕ) (i : ℤ) : Option ℕ :=
  if 0 ≤ i ∧ i < (len : ℤ) then some i.toNat
  else if i < 0 ∧ 0 ≤ i + (len : ℤ) then some (i + (len : ℤ)).toNat
  else none

/-- Python subscript `metadata[i]` with Python index semantics. -/
def pyGetDoc (metadata : List Doc) (i : ℤ) : Option Doc :=
  (pyResolve metadata.length i).bind (fun j => metadata[j]?)

/-- Line 86 of `src/rag_llm.py`:
`[metadata[i] for i in indices[0] if i < len(metadata)]`.  Only the upper
bound is checked, so the faiss padding position `-1` passes the guard and is
resolved by Python negative indexing.  The `none` case of `pyGetDoc` models
an uncaught `IndexError` (reachable only when the metadata list is empty,
which a built index never produces); `filterMap` keeps the model total. -/
def retrievedDocs (vecs : List Vec) (metadata : List Doc) (q : Vec) (k : ℕ) :
    List Doc :=
  (faissSearch vecs q k).filterMap
    (fun i => if i < (metadata.length : ℤ) then pyGetDoc metadata i else none)

/-- The retrieved candidates with the recomputed similarity written into the
`'similarity'` key (lines 93–98).  The in-place dict mutation is modelled
functionally: equal dicts receive equal scores, so the loop's overwrites are
order-independent.  `sim` is the similarity oracle (sklearn
`cosine_similarity` row); the claims hold for every scoring function. -/
def scoredDocs (sim : Vec → Vec → ℚ) (q : Vec) (vecs : List Vec)
    (metadata : List Doc) (k : ℕ) : List Doc :=
  (retrievedDocs vecs metadata q k).map (fun d => setSim d (sim q d.embedding))

/-- `retrieve_and_rerank` from `src/rag_llm.py`: `None` index or no
retrieved candidates give `[]`; otherwise score, filter by
`similarity >= min_similarity`, stably sort descending, and keep `top_n`. -/
def retrieve_and_rerank (sim : Vec → Vec → ℚ) (q : Vec)
    (index : Option (List Vec)) (metadata : List Doc)
    (k top_n : ℕ) (minSim : ℚ) : List Doc :=
  match index with
  | none => []
  | some vecs =>
    if retrievedDocs vecs metadata q k = [] then []
    else
      ((sortDescBy getSim
        ((scoredDocs sim q vecs metadata k).filter
          (fun d => decide (minSim ≤ getSim d)))).take top_n)

/-- The metadata positions whose dicts are aliased by `retrieved_docs` and
hence mutated by the similarity-attaching loop (line 98). -/
def touchedPositions (vecs : List Vec) (metadata : List Doc) (q : Vec)
    (k : ℕ) : List ℕ :=
  (faissSearch vecs q k).filterMap
    (fun i => if i < (metadata.length : ℤ) then pyResolve metadata.length i else none)

/-- Write the recomputed similarity into every touched metadata entry,
walking the list with its position. -/
def stampSim (sim : Vec → Vec → ℚ) (q : Vec) (touched : List ℕ) :
    ℕ → List Doc → List Doc
  | _, [] => []
  | j, d :: ds =>
    (if j ∈ touched then setSim d (sim q d.embedding) else d) ::
      stampSim sim q touched (j + 1) ds

/-- The metadata list as it stands after one call to `retrieve_and_rerank`:
the similarity-attaching loop has mutated the dicts of all retrieved
candidates in place. -/
def metadataAfterQuery (sim : Vec → Vec → ℚ) (q : Vec) (vecs : List Vec)
    (metadata : List Doc) (k : ℕ) : List Doc :=
  stampSim sim q (touchedPositions vecs metadata q k) 0 metadata

/-- Rational dot product; on unit vectors it coincides with cosine
similarity, giving an exact instance of the similarity oracle for concrete
witnesses. -/
def dotQ (a b : Vec) : ℚ := (List.zipWith (fun x y => x * y) a b).sum

/-! ### Sitemap resolver (`src/app.py`) -/

/-- Python `str.lower()` (ASCII suffices for the compared literals). -/
def pyLower (s : String) : String := String.mk (s.data.map Char.toLower)

/-- Python `str.startswith(p)`. -/
def pyStartsWith (s p : String) : Bool := p.data.isPrefixOf s.data

/-- Python `str.endswith(p)`. -/
def pyEndsWith (s p : String) : Bool := p.data.reverse.isPrefixOf s.data.reverse

/-- Python `str.strip()`. -/
def pyStrip (s : String) : String := String.mk (pyStripL s.data)

/-- Python `str.split(sep)` for a non-empty separator. -/
def pySplit (s sep : String) : List String := (splitOnSep sep.data s.data).map String.mk

/-- The filter of the robots.txt comprehension (line 74–75 of
`src/app.py`): the lowercased line starts with `"sitemap:"` and the
stripped, lowercased line does not end with `".xml.gz"`. -/
def robotsLinePasses (line : String) : Bool :=
  pyStartsWith (pyLower line) "sitemap:" &&
    ! pyEndsWith (pyLower (pyStrip line)) ".xml.gz"

/-- The comprehension element `line.split(": ")[1].strip()`: a passing line
without the `": "` separator raises an uncaught `IndexError` (`.error ()`). -/
def robotsExtract (line : String) : Except Unit String :=
  match (pySplit line ": ")[1]? with
  | some part => .ok (pyStrip part)
  | none => .error ()

/-- The whole comprehension over the robots.txt lines, evaluated left to
right as Python does. -/
def robotsLoop : List String → Except Unit (List String)
  | [] => .ok []
  | l :: ls =>
    if robotsLinePasses l then
      match robotsExtract l with
      | .error e => .error e
      | .ok u =>
        match robotsLoop ls with
        | .error e => .error e
        | .ok us => .ok (u :: us)
    else robotsLoop ls

/-- The default sitemap URL `f"{scheme}://{netloc}/sitemap.xml"`. -/
def defaultSitemap (scheme host : String) : String :=
  scheme ++ "://" ++ host ++ "/sitemap.xml"

/-- `fetch_sitemap_from_robots` from `src/app.py`, as a function of the
robots.txt response: `none` models a `requests` failure (network error or
bad HTTP status via `raise_for_status`), which is caught and answered with
the default sitemap path; a body is parsed by the comprehension, an empty
result falls back to the default, and an `IndexError` inside the
comprehension propagates uncaught. -/
def fetch_sitemap_from_robots (scheme host : String) :
    Option String → Except Unit (List String)
  | none => .ok [defaultSitemap scheme host]
  | some body =>
    match robotsLoop (pySplit body "\n") with
    | .error e => .error e
    | .ok urls =>
      .ok (if urls = [] then [defaultSitemap scheme host] else urls)

/-- The response obtained for one sitemap URL: a `requests` failure (caught:
warning and skip), an `ET.ParseError` from `ET.fromstring` (uncaught), or a
parsed document whose `<loc>` entries carry the given texts. -/
inductive SitemapResp where
  | netFail : SitemapResp
  | parseFail : SitemapResp
  | ok : List String → SitemapResp
deriving DecidableEq

/-- Line 100 of `src/app.py`: keep `<loc>` texts not ending in `".xml.gz"`
and cap at 25 per sitemap file. -/
def extractLocs (locs : List String) : List String :=
  (locs.filter (fun l => ! pyEndsWith l ".xml.gz")).take 25

/-- `fetch_sitemap_links` from `src/app.py` as a function of the per-sitemap
responses: network failures are skipped (the `except` clause catches only
`requests.exceptions.RequestException`), parse errors propagate uncaught and
abort the batch, successful sitemaps contribute their extracted links in
order. -/
def fetch_sitemap_links : List SitemapResp → Except Unit (List String)
  | [] => .ok []
  | SitemapResp.netFail :: rs => fetch_sitemap_links rs
  | SitemapResp.parseFail :: _ => .error ()
  | SitemapResp.ok locs :: rs =>
    match fetch_sitemap_links rs with
    | .error e => .error e
    | .ok ls => .ok (extractLocs locs ++ ls)

/-! ### Concrete inputs used by witnesses and counterexamples -/

/-- An embedding service that always fails. -/
def svcFail : String → ℕ → Option Vec := fun _ _ => none

/-- An embedding service that always answers with the unit vector `[1]`. -/
def svcOne : String → ℕ → Option Vec := fun _ _ => some [1]

/-- A scraped page with one-chunk content. -/
def pageHello : PageData := ⟨"u", "t", "d", "hello", none⟩

/-- A scraped page whose content is a single space. -/
def pageBlank : PageData := ⟨"ub", "tb", "db", " ", none⟩

/-- The metadata entry `pageHello` produces under `svcOne`. -/
def docHello : Doc := ⟨"u", "t", "d", "hello", [1], none⟩

/-- First metadata entry of the two-vector index used for C4. -/
def docA : Doc := ⟨"uA", "tA", "dA", "cA", [0], none⟩

/-- Second (last) metadata entry of the two-vector index used for C4. -/
def docB : Doc := ⟨"uB", "tB", "dB", "cB", [10], none⟩

/-- A one-entry metadata list on a unit vector, used for C6. -/
def docU : Doc := ⟨"u", "t", "d", "c", [1], none⟩

/-- A second scraped page with one-chunk content, whose embedding text the
mixed service rejects. -/
def pageBye : PageData := ⟨"u2", "t2", "d2", "bye", none⟩

/-- An embedding service that succeeds (with the unit vector) for every
input except the embedding text of `pageBye`'s chunk, for which every
attempt fails: it drives a mixed build in which earlier chunks embed
successfully before a later chunk exhausts its retries. -/
def svcMixed : String → ℕ → Option Vec :=
  fun t _ => if t = embedText pageBye "bye" then none else some [1]

/-! ## Chunker lemmas -/

theorem length_dropWhile_le (p : Char → Bool) (l : List Char) :
    (l.dropWhile p).length ≤ l.length := by
  induction l with
  | nil => simp
  | cons c rest ih =>
    rw [List.dropWhile_cons]
    split
    · exact le_trans ih (by simp)
    · simp

theorem pyStripL_length_le (l : List Char) : (pyStripL l).length ≤ l.length := by
  unfold pyStripL
  rw [List.length_reverse]
  calc ((l.dropWhile isPySpace).reverse.dropWhile isPySpace).length
      ≤ (l.dropWhile isPySpace).reverse.length := length_dropWhile_le _ _
    _ = (l.dropWhile isPySpace).length := List.length_reverse _
    _ ≤ l.length := length_dropWhile_le _ _

theorem dropWhile_eq_nil_of_all (p : Char → Bool) (l : List Char)
    (h : ∀ c ∈ l, p c = true) : l.dropWhile p = [] := by
  induction l with
  | nil => rfl
  | cons c rest ih =>
    rw [List.dropWhile_cons, if_pos (h c (by simp))]
    exact ih fun x hx => h x (by simp [hx])

theorem pyStripL_ws {l : List Char} (h : allWs l) : pyStripL l = [] := by
  unfold pyStripL
  rw [dropWhile_eq_nil_of_all _ _ h]
  rfl

theorem chooseSep_fst_nil (seps : List (List Char)) (text : List Char)
    (h : (chooseSep seps text).1 = []) : (chooseSep seps text).2 = [] := by
  induction seps with
  | nil => rfl
  | cons s rest ih =>
    rw [chooseSep] at h ⊢
    by_cases hs : s = []
    · simp [hs]
    · rw [if_neg hs] at h ⊢
      by_cases ho : occursIn s text = true
      · rw [if_pos ho] at h; exact absurd h hs
      · rw [if_neg ho] at h ⊢
        by_cases hr : rest = []
        · rw [if_pos hr] at h; exact absurd h hs
        · rw [if_neg hr] at h ⊢; exact ih h

theorem chooseSep_empty_snd (seps : List (List Char)) (text : List Char)
    (h : [] ∈ seps) :
    (chooseSep seps text).1 = [] ∨ [] ∈ (chooseSep seps text).2 := by
  induction seps with
  | nil => simp at h
  | cons s rest ih =>
    rw [chooseSep]
    by_cases hs : s = []
    · simp [hs]
    · rw [if_neg hs]
      have hrest : [] ∈ rest := by
        rcases List.mem_cons.mp h with h' | h'
        · exact absurd h'.symm hs
        · exact h'
      by_cases ho : occursIn s text = true
      · rw [if_pos ho]; exact Or.inr hrest
      · rw [if_neg ho]
        by_cases hr : rest = []
        · rw [hr] at hrest; simp at hrest
        · rw [if_neg hr]; exact ih hrest

theorem chooseSep_fst_mem (seps : List (List Char)) (text : List Char) :
    (chooseSep seps text).1 = [] ∨ (chooseSep seps text).1 ∈ seps := by
  induction seps with
  | nil => exact Or.inl rfl
  | cons s rest ih =>
    rw [chooseSep]
    by_cases hs : s = []
    · simp [hs]
    · rw [if_neg hs]
      by_cases ho : occursIn s text = true
      · rw [if_pos ho]; exact Or.inr (by simp)
      · rw [if_neg ho]
        by_cases hr : rest = []
        · rw [if_pos hr]; exact Or.inr (by simp)
        · rw [if_neg hr]
          rcases ih with h | h
          · exact Or.inl h
          · exact Or.inr (List.mem_cons_of_mem _ h)

theorem chooseSep_snd_subset (seps : List (List Char)) (text : List Char) :
    ∀ x ∈ (chooseSep seps text).2, x ∈ seps := by
  induction seps with
  | nil => intro x hx; simp [chooseSep] at hx
  | cons s rest ih =>
    intro x hx
    rw [chooseSep] at hx
    by_cases hs : s = []
    · simp [hs] at hx
    · rw [if_neg hs] at hx
      by_cases ho : occursIn s text = true
      · rw [if_pos ho] at hx; exact List.mem_cons_of_mem _ hx
      · rw [if_neg ho] at hx
        by_cases hr : rest = []
        · rw [if_pos hr] at hx; simp at hx
        · rw [if_neg hr] at hx
          exact List.mem_cons_of_mem _ (ih x hx)

theorem chooseSep_snd_length (seps : List (List Char)) (text : List Char)
    (h : seps ≠ []) : (chooseSep seps text).2.length < seps.length := by
  induction seps with
  | nil => exact absurd rfl h
  | cons s rest ih =>
    rw [chooseSep]
    by_cases hs : s = []
    · simp [hs]
    · rw [if_neg hs]
      by_cases ho : occursIn s text = true
      · rw [if_pos ho]; simp
      · rw [if_neg ho]
        by_cases hr : rest = []
        · rw [if_pos hr]; simp
        · rw [if_neg hr]
          exact lt_trans (ih hr) (by simp)

theorem splitOnSepF_chars (sep : List Char) :
    ∀ (fuel : ℕ) (text p : List Char), p ∈ splitOnSepF sep fuel text →
      ∀ c ∈ p, c ∈ text := by
  intro fuel
  induction fuel with
  | zero =>
    intro text p hp c hc
    simp only [splitOnSepF, List.mem_singleton] at hp
    exact hp ▸ hc
  | succ fuel ih =>
    intro text p hp c hc
    cases text with
    | nil =>
      simp only [splitOnSepF, List.mem_singleton] at hp
      rw [hp] at hc; simp at hc
    | cons a rest =>
      rw [splitOnSepF] at hp
      split at hp
      · rcases List.mem_cons.mp hp with h | h
        · rw [h] at hc; simp at hc
        · exact List.drop_subset _ _ (ih _ p h c hc)
      · rename_i hcond
        rcases hrec : splitOnSepF sep fuel rest with _ | ⟨q, qs⟩
        · rw [hrec] at hp
          simp only [List.mem_singleton] at hp
          rw [hp] at hc
          simp only [List.mem_singleton] at hc
          simp [hc]
        · rw [hrec] at hp
          rcases List.mem_cons.mp hp with h | h
          · rw [h] at hc
            rcases List.mem_cons.mp hc with h' | h'
            · simp [h']
            · have : q ∈ splitOnSepF sep fuel rest := by rw [hrec]; simp
              exact List.mem_cons_of_mem _ (ih _ q this c h')
          · have : p ∈ splitOnSepF sep fuel rest := by rw [hrec]; simp [h]
            exact List.mem_cons_of_mem _ (ih _ p this c hc)

theorem splitOnSep_chars (sep text : List Char) (p : List Char)
    (hp : p ∈ splitOnSep sep text) : ∀ c ∈ p, c ∈ text :=
  splitOnSepF_chars sep text.length text p hp

theorem splitWithSep_ws (sep text : List Char) (hsep : allWs sep)
    (htext : allWs text) : ∀ p ∈ splitWithSep sep text, allWs p := by
  intro p hp
  unfold splitWithSep at hp
  rcases hso : splitOnSep sep text with _ | ⟨q, qs⟩
  · rw [hso] at hp; simp at hp
  · rw [hso] at hp
    have hp' := (List.mem_filter.mp hp).1
    rcases List.mem_cons.mp hp' with h | h
    · intro c hc
      refine htext c (splitOnSep_chars sep text q ?_ c (h ▸ hc))
      rw [hso]; simp
    · obtain ⟨q', hq', hpq⟩ := List.mem_map.mp h
      intro c hc
      rw [← hpq] at hc
      rcases List.mem_append.mp hc with h' | h'
      · exact hsep c h'
      · refine htext c (splitOnSep_chars sep text q' ?_ c h')
        rw [hso]; exact List.mem_cons_of_mem _ hq'

theorem sumLen_cons (d : List Char) (l : List (List Char)) :
    sumLen (d :: l) = d.length + sumLen l := by
  simp [sumLen]

theorem sumLen_append_single (l : List (List Char)) (d : List Char) :
    sumLen (l ++ [d]) = sumLen l + d.length := by
  simp [sumLen]

theorem popLoop_spec (cs co dlen : ℕ) :
    ∀ (cur : List (List Char)) (total : ℕ), total = sumLen cur →
      (popLoop cs co dlen cur total).2 = sumLen (popLoop cs co dlen cur total).1 ∧
      ((popLoop cs co dlen cur total).2 = 0 ∨
        (popLoop cs co dlen cur total).2 + dlen ≤ cs) := by
  intro cur
  induction cur with
  | nil =>
    intro total h
    simp [sumLen] at h
    simp [popLoop, h, sumLen]
  | cons c rest ih =>
    intro total h
    rw [popLoop]
    split
    · refine ih _ ?_
      rw [h, sumLen_cons]
      omega
    · rename_i hcond
      push_neg at hcond
      refine ⟨h, ?_⟩
      omega

theorem popLoop_mem (cs co dlen : ℕ) :
    ∀ (cur : List (List Char)) (total : ℕ) (x : List Char),
      x ∈ (popLoop cs co dlen cur total).1 → x ∈ cur := by
  intro cur
  induction cur with
  | nil => intro total x hx; simp [popLoop] at hx
  | cons c rest ih =>
    intro total x hx
    rw [popLoop] at hx
    split at hx
    · exact List.mem_cons_of_mem _ (ih _ x hx)
    · exact hx

theorem joinDocs_length (docs : List (List Char)) (t : List Char)
    (h : joinDocs docs = some t) : t.length ≤ sumLen docs := by
  by_cases hmt : pyStripL docs.flatten = []
  · simp [joinDocs, hmt] at h
  · have ht : t = pyStripL docs.flatten := by
      simp only [joinDocs, if_neg hmt] at h
      injection h with h'
      exact h'.symm
    rw [ht]
    calc (pyStripL docs.flatten).length ≤ docs.flatten.length :=
          pyStripL_length_le _
      _ = sumLen docs := by rw [List.length_flatten]; rfl

theorem joinDocs_ws (docs : List (List Char)) (h : ∀ p ∈ docs, allWs p) :
    joinDocs docs = none := by
  unfold joinDocs
  have hws : allWs docs.flatten := by
    intro c hc
    obtain ⟨l, hl, hcl⟩ := List.mem_flatten.mp hc
    exact h l hl c hcl
  rw [pyStripL_ws hws]
  rfl

theorem mergeStep_bound (cs co : ℕ) (st : MergeState) (d : List Char)
    (hd : d.length ≤ cs) (hdocs : ∀ x ∈ st.docs, x.length ≤ cs)
    (htot : st.total = sumLen st.current) (hle : st.total ≤ cs) :
    (∀ x ∈ (mergeStep cs co st d).docs, x.length ≤ cs) ∧
    (mergeStep cs co st d).total = sumLen (mergeStep cs co st d).current ∧
    (mergeStep cs co st d).total ≤ cs := by
  unfold mergeStep
  by_cases hov : st.total + d.length > cs
  · rw [if_pos hov]
    by_cases hcur : st.current = []
    · rw [if_pos hcur]
      refine ⟨hdocs, ?_, ?_⟩
      · simp [sumLen]
      · simpa using hd
    · rw [if_neg hcur]
      obtain ⟨hps, hpd⟩ := popLoop_spec cs co d.length st.current st.total htot
      refine ⟨?_, ?_, ?_⟩
      · intro x hx
        simp only at hx
        rcases List.mem_append.mp hx with h | h
        · exact hdocs x h
        · rcases hj : joinDocs st.current with _ | t
          · rw [hj] at h; simp at h
          · rw [hj] at h
            simp only [Option.toList_some, List.mem_singleton] at h
            rw [h]
            calc t.length ≤ sumLen st.current := joinDocs_length _ _ hj
              _ = st.total := htot.symm
              _ ≤ cs := hle
      · simp only
        rw [sumLen_append_single, hps]
      · simp only
        rcases hpd with h0 | hcs'
        · rw [h0]; simpa using hd
        · exact hcs'
  · rw [if_neg hov]
    refine ⟨hdocs, ?_, ?_⟩
    · simp only
      rw [sumLen_append_single, htot]
    · simp only
      omega

theorem mergeFold_bound (cs co : ℕ) :
    ∀ (splits : List (List Char)) (st : MergeState),
      (∀ x ∈ splits, x.length ≤ cs) →
      (∀ x ∈ st.docs, x.length ≤ cs) →
      st.total = sumLen st.current → st.total ≤ cs →
      (∀ x ∈ (splits.foldl (mergeStep cs co) st).docs, x.length ≤ cs) ∧
      (splits.foldl (mergeStep cs co) st).total =
        sumLen (splits.foldl (mergeStep cs co) st).current ∧
      (splits.foldl (mergeStep cs co) st).total ≤ cs := by
  intro splits
  induction splits with
  | nil => intro st _ h1 h2 h3; exact ⟨h1, h2, h3⟩
  | cons d rest ih =>
    intro st hsp h1 h2 h3
    rw [List.foldl_cons]
    obtain ⟨g1, g2, g3⟩ :=
      mergeStep_bound cs co st d (hsp d (by simp)) h1 h2 h3
    exact ih _ (fun x hx => hsp x (List.mem_cons_of_mem _ hx)) g1 g2 g3

theorem mergeSplits_bound (cs co : ℕ) (splits : List (List Char))
    (h : ∀ x ∈ splits, x.length ≤ cs) :
    ∀ c ∈ mergeSplits cs co splits, c.length ≤ cs := by
  intro c hc
  unfold mergeSplits at hc
  obtain ⟨g1, g2, g3⟩ := mergeFold_bound cs co splits ⟨[], [], 0⟩ h
    (by intro x hx; simp at hx) (by simp [sumLen]) (by simp)
  rcases List.mem_append.mp hc with h' | h'
  · exact g1 c h'
  · rcases hj : joinDocs (splits.foldl (mergeStep cs co) ⟨[], [], 0⟩).current
      with _ | t
    · rw [hj] at h'; simp at h'
    · rw [hj] at h'
      simp only [Option.toList_some, List.mem_singleton] at h'
      rw [h']
      calc t.length ≤ sumLen (splits.foldl (mergeStep cs co) ⟨[], [], 0⟩).current :=
            joinDocs_length _ _ hj
        _ ≤ cs := by rw [← g2]; exact g3

theorem mergeStep_ws (cs co : ℕ) (st : MergeState) (d : List Char)
    (hd : allWs d) (hdocs : st.docs = []) (hcur : ∀ p ∈ st.current, allWs p) :
    (mergeStep cs co st d).docs = [] ∧
    ∀ p ∈ (mergeStep cs co st d).current, allWs p := by
  unfold mergeStep
  by_cases hov : st.total + d.length > cs
  · rw [if_pos hov]
    by_cases hc : st.current = []
    · rw [if_pos hc]
      refine ⟨hdocs, ?_⟩
      intro p hp
      simp only [List.mem_singleton] at hp
      exact hp ▸ hd
    · rw [if_neg hc]
      refine ⟨?_, ?_⟩
      · simp only
        rw [hdocs, joinDocs_ws st.current hcur]
        rfl
      · intro p hp
        simp only at hp
        rcases List.mem_append.mp hp with h | h
        · exact hcur p (popLoop_mem cs co d.length st.current st.total p h)
        · simp only [List.mem_singleton] at h
          exact h ▸ hd
  · rw [if_neg hov]
    refine ⟨hdocs, ?_⟩
    intro p hp
    simp only at hp
    rcases List.mem_append.mp hp with h | h
    · exact hcur p h
    · simp only [List.mem_singleton] at h
      exact h ▸ hd

theorem mergeFold_ws (cs co : ℕ) :
    ∀ (splits : List (List Char)) (st : MergeState),
      (∀ x ∈ splits, allWs x) → st.docs = [] → (∀ p ∈ st.current, allWs p) →
      (splits.foldl (mergeStep cs co) st).docs = [] ∧
      ∀ p ∈ (splits.foldl (mergeStep cs co) st).current, allWs p := by
  intro splits
  induction splits with
  | nil => intro st _ h1 h2; exact ⟨h1, h2⟩
  | cons d rest ih =>
    intro st hsp h1 h2
    rw [List.foldl_cons]
    obtain ⟨g1, g2⟩ := mergeStep_ws cs co st d (hsp d (by simp)) h1 h2
    exact ih _ (fun x hx => hsp x (List.mem_cons_of_mem _ hx)) g1 g2

theorem mergeSplits_ws (cs co : ℕ) (splits : List (List Char))
    (h : ∀ x ∈ splits, allWs x) : mergeSplits cs co splits = [] := by
  unfold mergeSplits
  obtain ⟨g1, g2⟩ := mergeFold_ws cs co splits ⟨[], [], 0⟩ h rfl
    (by intro p hp; simp at hp)
  rw [g1, joinDocs_ws _ g2]
  rfl

theorem goSplits_bound (cs co : ℕ) (newSeps : List (List Char))
    (rec : List Char → List (List Char))
    (hrec : newSeps ≠ [] → ∀ s c, c ∈ rec s → c.length ≤ cs) :
    ∀ (splits good : List (List Char)),
      (∀ g ∈ good, g.length ≤ cs) →
      (∀ s ∈ splits, s.length < cs ∨ newSeps ≠ []) →
      ∀ c ∈ goSplits cs co newSeps rec splits good, c.length ≤ cs := by
  intro splits
  induction splits with
  | nil =>
    intro good hg _ c hc
    rw [goSplits] at hc
    split at hc
    · simp at hc
    · exact mergeSplits_bound cs co good hg c hc
  | cons s rest ih =>
    intro good hg hs c hc
    rw [goSplits] at hc
    by_cases hlen : s.length < cs
    · rw [if_pos hlen] at hc
      refine ih (good ++ [s]) ?_ (fun x hx => hs x (List.mem_cons_of_mem _ hx)) c hc
      intro g hgm
      rcases List.mem_append.mp hgm with h | h
      · exact hg g h
      · simp only [List.mem_singleton] at h
        exact h ▸ le_of_lt hlen
    · rw [if_neg hlen] at hc
      rcases List.mem_append.mp hc with h | h
      · rcases List.mem_append.mp h with h' | h'
        · split at h'
          · simp at h'
          · exact mergeSplits_bound cs co good hg c h'
        · have hne : newSeps ≠ [] := by
            rcases hs s (by simp) with h'' | h''
            · exact absurd h'' hlen
            · exact h''
          rw [if_neg hne] at h'
          exact hrec hne s c h'
      · exact ih [] (by intro g hgm; simp at hgm)
          (fun x hx => hs x (List.mem_cons_of_mem _ hx)) c h

theorem goSplits_ws (cs co : ℕ) (newSeps : List (List Char))
    (rec : List Char → List (List Char))
    (hrec : newSeps ≠ [] → ∀ s, allWs s → rec s = []) :
    ∀ (splits good : List (List Char)),
      (∀ s ∈ splits, allWs s) → (∀ g ∈ good, allWs g) →
      (∀ s ∈ splits, s.length < cs ∨ newSeps ≠ []) →
      goSplits cs co newSeps rec splits good = [] := by
  intro splits
  induction splits with
  | nil =>
    intro good _ hg _
    rw [goSplits]
    split
    · rfl
    · exact mergeSplits_ws cs co good hg
  | cons s rest ih =>
    intro good hsp hg hs
    rw [goSplits]
    by_cases hlen : s.length < cs
    · rw [if_pos hlen]
      refine ih (good ++ [s]) (fun x hx => hsp x (List.mem_cons_of_mem _ hx)) ?_
        (fun x hx => hs x (List.mem_cons_of_mem _ hx))
      intro g hgm
      rcases List.mem_append.mp hgm with h | h
      · exact hg g h
      · simp only [List.mem_singleton] at h
        exact h ▸ hsp s (by simp)
    · rw [if_neg hlen]
      have hne : newSeps ≠ [] := by
        rcases hs s (by simp) with h'' | h''
        · exact absurd h'' hlen
        · exact h''
      rw [if_neg hne]
      rw [hrec hne s (hsp s (by simp))]
      rw [ih [] (fun x hx => hsp x (List.mem_cons_of_mem _ hx))
        (by intro g hgm; simp at hgm)
        (fun x hx => hs x (List.mem_cons_of_mem _ hx))]
      split
      · rfl
      · rename_i hgood
        rw [mergeSplits_ws cs co good hg]
        rfl

theorem splitTextFuel_bound (cs co : ℕ) (hcs : 1 < cs) :
    ∀ (fuel : ℕ) (seps : List (List Char)) (text : List Char),
      [] ∈ seps → seps.length ≤ fuel →
      ∀ c ∈ splitTextFuel cs co fuel seps text, c.length ≤ cs := by
  intro fuel
  induction fuel with
  | zero =>
    intro seps text hmem hlen
    have : seps = [] := List.length_eq_zero.mp (Nat.le_zero.mp hlen)
    rw [this] at hmem
    simp at hmem
  | succ fuel ih =>
    intro seps text hmem hlen c hc
    rw [splitTextFuel] at hc
    have hsne : seps ≠ [] := List.ne_nil_of_mem hmem
    by_cases h1 : (chooseSep seps text).1 = []
    · have h2 : (chooseSep seps text).2 = [] := chooseSep_fst_nil seps text h1
      rw [h1, h2] at hc
      simp only [if_pos rfl] at hc
      refine goSplits_bound cs co [] _ (fun hne => absurd rfl hne)
        (text.map (fun ch => [ch])) [] (by intro g hg; simp at hg) ?_ c hc
      intro s hsm
      obtain ⟨ch, _, hch⟩ := List.mem_map.mp hsm
      left
      rw [← hch]
      simpa using hcs
    · have h2 : [] ∈ (chooseSep seps text).2 :=
        (chooseSep_empty_snd seps text hmem).resolve_left h1
      have hne2 : (chooseSep seps text).2 ≠ [] := List.ne_nil_of_mem h2
      have hlen2 : (chooseSep seps text).2.length ≤ fuel := by
        have := chooseSep_snd_length seps text hsne
        omega
      rw [if_neg h1] at hc
      refine goSplits_bound cs co (chooseSep seps text).2 _
        (fun _ => fun s c' hc' => ih (chooseSep seps text).2 s h2 hlen2 c' hc')
        (splitWithSep (chooseSep seps text).1 text) []
        (by intro g hg; simp at hg) (fun s _ => Or.inr hne2) c hc

theorem splitTextFuel_ws (cs co : ℕ) (hcs : 1 < cs) :
    ∀ (fuel : ℕ) (seps : List (List Char)) (text : List Char),
      [] ∈ seps → seps.length ≤ fuel → (∀ sp ∈ seps, allWs sp) → allWs text →
      splitTextFuel cs co fuel seps text = [] := by
  intro fuel
  induction fuel with
  | zero =>
    intro seps text hmem hlen
    have : seps = [] := List.length_eq_zero.mp (Nat.le_zero.mp hlen)
    rw [this] at hmem
    simp at hmem
  | succ fuel ih =>
    intro seps text hmem hlen hseps htext
    rw [splitTextFuel]
    have hsne : seps ≠ [] := List.ne_nil_of_mem hmem
    by_cases h1 : (chooseSep seps text).1 = []
    · have h2 : (chooseSep seps text).2 = [] := chooseSep_fst_nil seps text h1
      rw [h1, h2]
      simp only [if_pos rfl]
      refine goSplits_ws cs co [] _ (fun hne => absurd rfl hne)
        (text.map (fun ch => [ch])) [] ?_ (by intro g hg; simp at hg) ?_
      · intro s hsm
        obtain ⟨ch, hch, hs⟩ := List.mem_map.mp hsm
        intro x hx
        rw [← hs] at hx
        simp only [List.mem_singleton] at hx
        exact hx ▸ htext ch hch
      · intro s hsm
        obtain ⟨ch, _, hch⟩ := List.mem_map.mp hsm
        left
        rw [← hch]
        simpa using hcs
    · have h2 : [] ∈ (chooseSep seps text).2 :=
        (chooseSep_empty_snd seps text hmem).resolve_left h1
      have hne2 : (chooseSep seps text).2 ≠ [] := List.ne_nil_of_mem h2
      have hlen2 : (chooseSep seps text).2.length ≤ fuel := by
        have := chooseSep_snd_length seps text hsne
        omega
      have hsepws : allWs (chooseSep seps text).1 := by
        rcases chooseSep_fst_mem seps text with h | h
        · exact absurd h h1
        · exact hseps _ h
      rw [if_neg h1]
      refine goSplits_ws cs co (chooseSep seps text).2 _
        (fun _ => fun s hsws => ih (chooseSep seps text).2 s h2 hlen2
          (fun sp hsp => hseps sp (chooseSep_snd_subset seps text sp hsp)) hsws)
        (splitWithSep (chooseSep seps text).1 text) []
        (splitWithSep_ws _ _ hsepws htext) (by intro g hg; simp at hg)
        (fun s _ => Or.inr hne2)

theorem chunk_text_ws (text : String)
    (h : ∀ c ∈ text.data, isPySpace c = true) : chunk_text text = [] := by
  unfold chunk_text
  rw [splitTextFuel_ws 500 200 (by norm_num) pySeps.length pySeps text.data
    (by simp [pySeps]) le_rfl (by decide) h]
  rfl

/-! ## Stable descending sort lemmas -/

theorem mem_insertDesc {α : Type} (key : α → ℚ) (a x : α) :
    ∀ l : List α, x ∈ insertDesc key a l ↔ x = a ∨ x ∈ l := by
  intro l
  induction l with
  | nil => simp [insertDesc]
  | cons b bs ih =>
    rw [insertDesc]
    split
    · simp
    · simp only [List.mem_cons, ih]
      tauto

theorem mem_sortDescBy {α : Type} (key : α → ℚ) (x : α) :
    ∀ l : List α, x ∈ sortDescBy key l ↔ x ∈ l := by
  intro l
  induction l with
  | nil => simp [sortDescBy]
  | cons a as ih =>
    rw [sortDescBy, mem_insertDesc]
    simp [ih]

theorem pairwise_insertDesc {α : Type} (key : α → ℚ) (a : α) (l : List α)
    (h : l.Pairwise (fun x y => key y ≤ key x)) :
    (insertDesc key a l).Pairwise (fun x y => key y ≤ key x) := by
  induction l with
  | nil => simp [insertDesc]
  | cons b bs ih =>
    rw [insertDesc]
    rcases List.pairwise_cons.mp h with ⟨hb, hbs⟩
    split
    · rename_i hba
      refine List.pairwise_cons.mpr ⟨?_, h⟩
      intro x hx
      rcases List.mem_cons.mp hx with h' | h'
      · exact h' ▸ hba
      · exact le_trans (hb x h') hba
    · rename_i hba
      refine List.pairwise_cons.mpr ⟨?_, ih hbs⟩
      intro x hx
      rcases (mem_insertDesc key a x bs).mp hx with h' | h'
      · rw [h']
        exact le_of_not_le hba
      · exact hb x h'

theorem pairwise_sortDescBy {α : Type} (key : α → ℚ) :
    ∀ l : List α, (sortDescBy key l).Pairwise (fun x y => key y ≤ key x) := by
  intro l
  induction l with
  | nil => simp [sortDescBy]
  | cons a as ih => exact pairwise_insertDesc key a _ ih

theorem filter_insertDesc {α : Type} (key : α → ℚ) (s : ℚ) (a : α) :
    ∀ l : List α,
      (insertDesc key a l).filter (fun x => decide (key x = s)) =
        if key a = s then a :: l.filter (fun x => decide (key x = s))
        else l.filter (fun x => decide (key x = s)) := by
  intro l
  induction l with
  | nil =>
    rw [insertDesc]
    split <;> simp_all
  | cons b bs ih =>
    rw [insertDesc]
    split
    · rename_i hba
      by_cases has : key a = s <;> simp [List.filter_cons, has]
    · rename_i hba
      have hab : key a < key b := lt_of_not_le hba
      by_cases hbs' : key b = s
      · have has : ¬ key a = s := by
          intro h'
          rw [h', ← hbs'] at hab
          exact lt_irrefl _ hab
        simp [List.filter_cons, hbs', ih, has]
      · by_cases has : key a = s <;> simp [List.filter_cons, hbs', ih, has]

theorem filter_sortDescBy {α : Type} (key : α → ℚ) (s : ℚ) :
    ∀ l : List α,
      (sortDescBy key l).filter (fun x => decide (key x = s)) =
        l.filter (fun x => decide (key x = s)) := by
  intro l
  induction l with
  | nil => rfl
  | cons a as ih =>
    rw [sortDescBy, filter_insertDesc, List.filter_cons]
    split <;> simp_all

/-! ## Build-phase lemmas -/

theorem processChunks_map (svc : String → ℕ → Option Vec) (d : PageData) :
    ∀ (chunks : List String) (acc : List Vec × List Doc)
      (res : List Vec × List Doc),
      processChunks svc d chunks acc = .ok res →
      acc.1 = acc.2.map Doc.embedding → res.1 = res.2.map Doc.embedding := by
  intro chunks
  induction chunks with
  | nil =>
    intro acc res h hacc
    rw [processChunks] at h
    injection h with h'
    rw [← h']
    exact hacc
  | cons c cs ih =>
    intro acc res h hacc
    rw [processChunks] at h
    rcases hge : get_embeddings svc (embedText d c) with e | v
    · rw [hge] at h; exact absurd h (by simp)
    · rw [hge] at h
      refine ih _ res h ?_
      simp [hacc]

theorem processRecords_map (svc : String → ℕ → Option Vec) :
    ∀ (records : List PageData) (acc : List Vec × List Doc)
      (res : List Vec × List Doc),
      processRecords svc records acc = .ok res →
      acc.1 = acc.2.map Doc.embedding → res.1 = res.2.map Doc.embedding := by
  intro records
  induction records with
  | nil =>
    intro acc res h hacc
    rw [processRecords] at h
    injection h with h'
    rw [← h']
    exact hacc
  | cons d ds ih =>
    intro acc res h hacc
    rw [processRecords] at h
    split at h
    · rcases hpc : processChunks svc d (chunk_text d.content) acc with e | acc'
      · rw [hpc] at h; exact absurd h (by simp)
      · rw [hpc] at h
        exact ih acc' res h (processChunks_map svc d _ acc acc' hpc hacc)
    · exact ih acc res h hacc

theorem getD_map_embedding :
    ∀ (metas : List Doc) (j : ℕ), j < metas.length →
      (metas.map Doc.embedding).getD j [] = (metas.getD j emptyDoc).embedding := by
  intro metas
  induction metas with
  | nil => intro j hj; simp at hj
  | cons d ds ih =>
    intro j hj
    cases j with
    | zero => simp
    | succ j' =>
      simp only [List.map_cons, List.getD_cons_succ]
      exact ih j' (by simpa using hj)

/-! ## Service-failure lemmas -/

theorem get_embeddings_error_msg (svc : String → ℕ → Option Vec)
    (t : String) (e : String) (h : get_embeddings svc t = .error e) :
    e = embedFailMsg := by
  unfold get_embeddings at h
  rcases h0 : svc t 0 with _ | v
  · rw [h0] at h
    rcases h1 : svc t 1 with _ | v
    · rw [h1] at h
      rcases h2 : svc t 2 with _ | v
      · rw [h2] at h
        injection h with h'
        exact h'.symm
      · rw [h2] at h
        exact absurd h (by simp)
    · rw [h1] at h
      exact absurd h (by simp)
  · rw [h0] at h
    exact absurd h (by simp)

theorem get_embeddings_fail_of (svc : String → ℕ → Option Vec) (t : String)
    (h : ∀ n < 3, svc t n = none) :
    get_embeddings svc t = .error embedFailMsg := by
  unfold get_embeddings
  rw [h 0 (by norm_num), h 1 (by norm_num), h 2 (by norm_num)]

theorem processChunks_error_msg (svc : String → ℕ → Option Vec)
    (d : PageData) :
    ∀ (chunks : List String) (acc : List Vec × List Doc) (e : String),
      processChunks svc d chunks acc = .error e → e = embedFailMsg := by
  intro chunks
  induction chunks with
  | nil =>
    intro acc e h
    rw [processChunks] at h
    exact absurd h (by simp)
  | cons c cs ih =>
    intro acc e h
    rw [processChunks] at h
    rcases hge : get_embeddings svc (embedText d c) with e' | v
    · rw [hge] at h
      injection h with h'
      exact h' ▸ get_embeddings_error_msg svc _ e' hge
    · rw [hge] at h
      exact ih _ e h

theorem processChunks_fail_of_chunk (svc : String → ℕ → Option Vec)
    (d : PageData) :
    ∀ (chunks : List String) (acc : List Vec × List Doc),
      (∃ c ∈ chunks, ∀ n < 3, svc (embedText d c) n = none) →
      processChunks svc d chunks acc = .error embedFailMsg := by
  intro chunks
  induction chunks with
  | nil => intro acc h; simp at h
  | cons c cs ih =>
    intro acc h
    rw [processChunks]
    rcases hge : get_embeddings svc (embedText d c) with e | v
    · rw [get_embeddings_error_msg svc _ e hge]
    · obtain ⟨c', hc', hfail⟩ := h
      rcases List.mem_cons.mp hc' with h' | h'
      · exfalso
        have hf : get_embeddings svc (embedText d c) = .error embedFailMsg := by
          rw [← h']
          exact get_embeddings_fail_of svc _ hfail
        rw [hf] at hge
        simp at hge
      · exact ih _ ⟨c', h', hfail⟩

theorem processRecords_fail_of_chunk (svc : String → ℕ → Option Vec) :
    ∀ (records : List PageData) (acc : List Vec × List Doc),
      (∃ r ∈ records, r.error = none ∧ r.content ≠ "" ∧
        ∃ c ∈ chunk_text r.content, ∀ n < 3, svc (embedText r c) n = none) →
      processRecords svc records acc = .error embedFailMsg := by
  intro records
  induction records with
  | nil => intro acc h; simp at h
  | cons d ds ih =>
    intro acc h
    rw [processRecords]
    by_cases hcond : d.error = none ∧ d.content ≠ ""
    · rw [if_pos hcond]
      rcases hpc : processChunks svc d (chunk_text d.content) acc with e | acc'
      · rw [processChunks_error_msg svc d _ acc e hpc]
      · obtain ⟨r, hr, h1, h2, c, hc, hfail⟩ := h
        rcases List.mem_cons.mp hr with h' | h'
        · exfalso
          have hf : processChunks svc d (chunk_text d.content) acc =
              .error embedFailMsg := by
            refine processChunks_fail_of_chunk svc d _ acc ⟨c, ?_, ?_⟩
            · rw [← h']
              exact hc
            · rw [← h']
              exact hfail
          rw [hf] at hpc
          simp at hpc
        · exact ih acc' ⟨r, h', h1, h2, c, hc, hfail⟩
    · rw [if_neg hcond]
      obtain ⟨r, hr, h1, h2, hrest⟩ := h
      rcases List.mem_cons.mp hr with h' | h'
      · exact absurd ⟨h' ▸ h1, h' ▸ h2⟩ hcond
      · exact ih acc ⟨r, h', h1, h2, hrest⟩

/-! ## Record-skipping lemmas -/

theorem processRecords_skip (svc : String → ℕ → Option Vec) (r : PageData)
    (hr : (∀ c ∈ r.content.data, isPySpace c = true) ∨ r.error ≠ none) :
    ∀ (pre post : List PageData) (acc : List Vec × List Doc),
      processRecords svc (pre ++ r :: post) acc =
        processRecords svc (pre ++ post) acc := by
  intro pre
  induction pre with
  | nil =>
    intro post acc
    simp only [List.nil_append]
    rw [processRecords]
    by_cases hcond : r.error = none ∧ r.content ≠ ""
    · rw [if_pos hcond]
      have hws : ∀ c ∈ r.content.data, isPySpace c = true := by
        rcases hr with h | h
        · exact h
        · exact absurd hcond.1 h
      rw [chunk_text_ws r.content hws, processChunks]
    · rw [if_neg hcond]
  | cons d ds ih =>
    intro post acc
    simp only [List.cons_append]
    rw [processRecords, processRecords]
    split
    · rcases hpc : processChunks svc d (chunk_text d.content) acc with e | acc'
      · rfl
      · exact ih post acc'
    · exact ih post acc

/-! ## Query-phase positional lemmas -/

theorem stampSim_length (sim : Vec → Vec → ℚ) (q : Vec) (touched : List ℕ) :
    ∀ (ds : List Doc) (base : ℕ), (stampSim sim q touched base ds).length = ds.length := by
  intro ds
  induction ds with
  | nil => intro base; rfl
  | cons d ds' ih =>
    intro base
    rw [stampSim]
    simp [ih]

theorem stampSim_getD (sim : Vec → Vec → ℚ) (q : Vec) (touched : List ℕ) :
    ∀ (ds : List Doc) (base j : ℕ), j < ds.length →
      (stampSim sim q touched base ds).getD j emptyDoc =
        if (base + j) ∈ touched then
          setSim (ds.getD j emptyDoc) (sim q (ds.getD j emptyDoc).embedding)
        else ds.getD j emptyDoc := by
  intro ds
  induction ds with
  | nil => intro base j hj; simp at hj
  | cons d ds' ih =>
    intro base j hj
    rw [stampSim]
    cases j with
    | zero => simp
    | succ j' =>
      simp only [List.getD_cons_succ]
      rw [ih (base + 1) j' (by simpa using hj)]
      have : base + 1 + j' = base + (j' + 1) := by omega
      rw [this]

/-! ## Sitemap resolver lemmas -/

theorem robotsLoop_no_pass :
    ∀ lines : List String, (∀ l ∈ lines, robotsLinePasses l = false) →
      robotsLoop lines = .ok [] := by
  intro lines
  induction lines with
  | nil => intro _; rfl
  | cons l ls ih =>
    intro h
    rw [robotsLoop]
    rw [if_neg (by simp [h l (by simp)])]
    exact ih fun x hx => h x (List.mem_cons_of_mem _ hx)

theorem fetch_sitemap_links_mem :
    ∀ (resps : List SitemapResp) (links : List String),
      fetch_sitemap_links resps = .ok links →
      ∀ l ∈ links, ∃ ls, SitemapResp.ok ls ∈ resps ∧ l ∈ extractLocs ls := by
  intro resps
  induction resps with
  | nil =>
    intro links h l hl
    rw [fetch_sitemap_links] at h
    injection h with h'
    rw [← h'] at hl
    simp at hl
  | cons r rs ih =>
    intro links h l hl
    cases r with
    | netFail =>
      rw [fetch_sitemap_links] at h
      obtain ⟨ls, h1, h2⟩ := ih links h l hl
      exact ⟨ls, List.mem_cons_of_mem _ h1, h2⟩
    | parseFail => exact absurd h (by simp [fetch_sitemap_links])
    | ok locs =>
      rw [fetch_sitemap_links] at h
      rcases hrec : fetch_sitemap_links rs with e | ls'
      · rw [hrec] at h
        exact absurd h (by simp)
      · rw [hrec] at h
        injection h with h'
        rw [← h'] at hl
        rcases List.mem_append.mp hl with h'' | h''
        · exact ⟨locs, by simp, h''⟩
        · obtain ⟨ls, h1, h2⟩ := ih ls' hrec l h''
          exact ⟨ls, List.mem_cons_of_mem _ h1, h2⟩

/-! ## The claims -/

/-- C1: for every built index with its parallel metadata list, every query
embedding, every similarity oracle, and all parameters `k`, `top_n`,
`min_similarity`, the list returned by `retrieve_and_rerank` is sorted in
descending order of the recomputed similarity attached to each candidate,
equal scores keep the original candidate order (the filtered candidate
sublist at any given score is recovered as a prefix), every returned result
has similarity at least `min_similarity`, at most `top_n` results are
returned, and every returned result arises from a position produced by the
Euclidean nearest-neighbor search step. -/
theorem c1_retrieve_and_rerank_spec (sim : Vec → Vec → ℚ) (q : Vec)
    (vecs : List Vec) (metadata : List Doc) (k top_n : ℕ) (minSim : ℚ)
    (_hpar : metadata.length = vecs.length) (_hne : vecs ≠ []) :
    (retrieve_and_rerank sim q (some vecs) metadata k top_n minSim).Pairwise
      (fun a b => getSim b ≤ getSim a) ∧
    (∀ d ∈ retrieve_and_rerank sim q (some vecs) metadata k top_n minSim,
      minSim ≤ getSim d) ∧
    (retrieve_and_rerank sim q (some vecs) metadata k top_n minSim).length ≤ top_n ∧
    (∀ d ∈ retrieve_and_rerank sim q (some vecs) metadata k top_n minSim,
      ∃ p ∈ faissSearch vecs q k, ∃ d0, pyGetDoc metadata p = some d0 ∧
        d = setSim d0 (sim q d0.embedding)) ∧
    (∀ s : ℚ, ∃ t : List Doc,
      (retrieve_and_rerank sim q (some vecs) metadata k top_n minSim).filter
          (fun d => decide (getSim d = s)) ++ t =
        ((scoredDocs sim q vecs metadata k).filter
            (fun d => decide (minSim ≤ getSim d))).filter
          (fun d => decide (getSim d = s))) := by
  simp only [retrieve_and_rerank]
  by_cases hr : retrievedDocs vecs metadata q k = []
  · rw [if_pos hr]
    refine ⟨by simp, by simp, by simp, by simp, ?_⟩
    intro s
    exact ⟨_, rfl⟩
  · rw [if_neg hr]
    refine ⟨?_, ?_, ?_, ?_, ?_⟩
    · exact List.Pairwise.sublist (List.take_sublist _ _)
        (pairwise_sortDescBy getSim _)
    · intro d hd
      have hd1 := (mem_sortDescBy getSim d _).mp (List.mem_of_mem_take hd)
      exact of_decide_eq_true (List.mem_filter.mp hd1).2
    · exact List.length_take_le _ _
    · intro d hd
      have hd1 := (mem_sortDescBy getSim d _).mp (List.mem_of_mem_take hd)
      have hd2 := (List.mem_filter.mp hd1).1
      obtain ⟨d0, hd0, hds⟩ := List.mem_map.mp hd2
      obtain ⟨p, hp, hpd⟩ := List.mem_filterMap.mp hd0
      refine ⟨p, hp, d0, ?_, hds.symm⟩
      by_cases hlt : p < (metadata.length : ℤ)
      · rw [if_pos hlt] at hpd
        exact hpd
      · rw [if_neg hlt] at hpd
        exact absurd hpd (by simp)
    · intro s
      refine ⟨((sortDescBy getSim
        ((scoredDocs sim q vecs metadata k).filter
          (fun d => decide (minSim ≤ getSim d)))).drop top_n).filter
            (fun d => decide (getSim d = s)), ?_⟩
      rw [← List.filter_append, List.take_append_drop, filter_sortDescBy]

/-- C1 witness: the theorem applied at a concrete two-vector index with the
dot-product similarity oracle and the query embedding `[0]`. -/
theorem c1_witness :
    (([docA, docB] : List Doc).length = ([[0], [10]] : List Vec).length ∧
      ([[0], [10]] : List Vec) ≠ []) ∧
    (retrieve_and_rerank dotQ [0] (some [[0], [10]]) [docA, docB] 5 3 0).Pairwise
      (fun a b => getSim b ≤ getSim a) :=
  ⟨⟨by decide, by decide⟩,
    (c1_retrieve_and_rerank_spec dotQ [0] [[0], [10]] [docA, docB] 5 3 0
      (by decide) (by decide)).1⟩

/-- C2 counterexample: `chunk_text " a"` returns `["a"]`, so concatenating
the chunks (there is no overlap to remove from a single chunk) yields `"a"`,
not the original input `" a"`: langchain's splitter strips whitespace at
chunk boundaries and the declared reconstruction fails. -/
theorem c2_counterexample :
    reconstructOverlap 200 (chunk_text " a") ≠ " a" := by decide

/-- C2 amended: every chunk produced by `chunk_text` has length at most 500
characters; the lossless-reconstruction half of the claim is false (see the
counterexample), because the splitter strips whitespace at chunk boundaries
and the inter-chunk overlap is not a fixed 200 characters. -/
theorem c2_amended_chunk_length_bound (text : String) :
    ∀ c ∈ chunk_text text, c.length ≤ 500 := by
  intro c hc
  unfold chunk_text at hc
  obtain ⟨l, hl, hcl⟩ := List.mem_map.mp hc
  rw [← hcl]
  show l.length ≤ 500
  exact splitTextFuel_bound 500 200 (by norm_num) pySeps.length pySeps
    text.data (by decide) le_rfl l hl

/-- C2 witness: the amended bound evaluated on the concrete input
`"hello"`, whose single chunk is `"hello"` itself. -/
theorem c2_amended_witness :
    "hello" ∈ chunk_text "hello" ∧ ("hello" : String).length ≤ 500 :=
  ⟨by decide, c2_amended_chunk_length_bound "hello" "hello" (by decide)⟩

/-- C3: whenever `fetch_and_store_scraped_data` returns an index, the index
and the parallel metadata list have equal length, and the embedding stored
in the i-th metadata entry equals the i-th vector added to the index: both
structures are in identical insertion order. -/
theorem c3_index_metadata_parallel (svc : String → ℕ → Option Vec)
    (scraped : List PageData) (idx : List Vec) (metas : List Doc)
    (h : fetch_and_store_scraped_data svc scraped = .ok (some idx, metas)) :
    idx.length = metas.length ∧
    idx = metas.map Doc.embedding ∧
    ∀ j, j < idx.length →
      idx.getD j [] = (metas.getD j emptyDoc).embedding := by
  have hmap : idx = metas.map Doc.embedding := by
    unfold fetch_and_store_scraped_data at h
    by_cases hs : scraped = []
    · rw [if_pos hs] at h
      injection h with h'
      exact absurd (congrArg Prod.fst h') (by simp)
    · rw [if_neg hs] at h
      split at h
      · exact absurd h (by simp)
      · rename_i embs ms hpr
        by_cases hemb : embs = []
        · rw [if_pos hemb] at h
          injection h with h'
          exact absurd (congrArg Prod.fst h') (by simp)
        · rw [if_neg hemb] at h
          injection h with h'
          rw [Prod.mk.injEq] at h'
          have h1 : embs = idx := Option.some.inj h'.1
          have h2 : ms = metas := h'.2
          rw [← h1, ← h2]
          exact processRecords_map svc scraped ([], []) (embs, ms) hpr rfl
  refine ⟨by rw [hmap]; simp, hmap, ?_⟩
  intro j hj
  rw [hmap]
  refine getD_map_embedding metas j ?_
  rw [hmap] at hj
  simpa using hj

/-- C3 witness: the theorem applied to the one-page, one-chunk build under
the constant embedding service. -/
theorem c3_witness :
    fetch_and_store_scraped_data svcOne [pageHello] =
      .ok (some [[1]], [docHello]) ∧
    ([[1]] : List Vec).length = [docHello].length ∧
    ([[1]] : List Vec) = [docHello].map Doc.embedding :=
  ⟨by rfl,
    (c3_index_metadata_parallel svcOne [pageHello] [[1]] [docHello] (by rfl)).1,
    (c3_index_metadata_parallel svcOne [pageHello] [[1]] [docHello] (by rfl)).2.1⟩

/-- C4: the claim is right and the code is wrong.  On an index holding 2
vectors with `k = 5`, the Euclidean search pads its result with the sentinel
position `-1`; the guard `i < len(metadata)` does not discard it, and Python
negative indexing maps `metadata[-1]` to the last metadata entry, so the
candidate list is `[docA, docB, docB, docB, docB]` instead of
`[docA, docB]`: the padding position is kept and resolved to a wrong entry
rather than discarded. -/
theorem c4_padding_position_not_discarded :
    faissSearch [[0], [10]] [0] 5 = [0, 1, -1, -1, -1] ∧
    retrievedDocs [[0], [10]] [docA, docB] [0] 5 =
      [docA, docB, docB, docB, docB] := by
  constructor
  · norm_num [faissSearch, sortAscBy, insertAsc, sqDist, List.range_succ,
      List.replicate_succ]
  · norm_num [retrievedDocs, faissSearch, sortAscBy, insertAsc, sqDist,
      List.range_succ, pyGetDoc, pyResolve, List.replicate_succ,
      List.filterMap_cons, Option.bind]

/-- C5: if the embedding service fails on all 3 attempts for some chunk of
some indexable record — earlier chunks may well have embedded successfully —
then `get_embeddings` raises the service error for any such input,
`fetch_and_store_scraped_data` fails the whole build by propagating that
error, and the caller's session index is left exactly as it was: no
partially built index is handed back. -/
theorem c5_service_error_fails_build (svc : String → ℕ → Option Vec)
    (scraped : List PageData)
    (hx : ∃ r ∈ scraped, r.error = none ∧ r.content ≠ "" ∧
      ∃ c ∈ chunk_text r.content, ∀ n < 3, svc (embedText r c) n = none) :
    (∀ t, (∀ n < 3, svc t n = none) →
      get_embeddings svc t = .error embedFailMsg) ∧
    fetch_and_store_scraped_data svc scraped = .error embedFailMsg ∧
    ∀ prev, sessionIndexAfterBuild prev
      (fetch_and_store_scraped_data svc scraped) = prev := by
  have hfetch : fetch_and_store_scraped_data svc scraped = .error embedFailMsg := by
    unfold fetch_and_store_scraped_data
    have hne : scraped ≠ [] := by
      obtain ⟨r, hr, _⟩ := hx
      exact List.ne_nil_of_mem hr
    rw [if_neg hne, processRecords_fail_of_chunk svc scraped ([], []) hx]
  refine ⟨fun t ht => get_embeddings_fail_of svc t ht, hfetch, ?_⟩
  intro prev
  rw [hfetch]
  rfl

/-- C5 witness: the theorem applied to a mixed two-page build under
`svcMixed`: the first record's chunk embeds successfully (shown by the
second conjunct), the second record's chunk fails all three attempts, the
build errors, and the session index stays unset. -/
theorem c5_witness :
    (∃ r ∈ [pageHello, pageBye], r.error = none ∧ r.content ≠ "" ∧
      ∃ c ∈ chunk_text r.content, ∀ n < 3, svcMixed (embedText r c) n = none) ∧
    get_embeddings svcMixed (embedText pageHello "hello") = .ok [1] ∧
    fetch_and_store_scraped_data svcMixed [pageHello, pageBye] =
      .error embedFailMsg ∧
    sessionIndexAfterBuild none
      (fetch_and_store_scraped_data svcMixed [pageHello, pageBye]) = none :=
  ⟨by decide, rfl,
    (c5_service_error_fails_build svcMixed [pageHello, pageBye]
      (by decide)).2.1,
    (c5_service_error_fails_build svcMixed [pageHello, pageBye]
      (by decide)).2.2 none⟩

/-- C6 counterexample: a query on a built one-entry index mutates the
metadata in place — the retrieved candidate's dict gains a `'similarity'`
key — so the metadata is not left unchanged by a query. -/
theorem c6_counterexample :
    metadataAfterQuery dotQ [1] [[1]] [docU] 1 ≠ [docU] := by decide

/-- C6 amended: a query leaves the vector index untouched and changes no
metadata field other than `'similarity'`: every metadata entry is either
unchanged or equal to the original entry with its similarity set to the
recomputed score, entries outside the retrieved candidate positions are
fully unchanged, and the list length is preserved. -/
theorem c6_amended_query_mutates_only_similarity (sim : Vec → Vec → ℚ)
    (q : Vec) (vecs : List Vec) (metadata : List Doc) (k : ℕ) :
    (metadataAfterQuery sim q vecs metadata k).length = metadata.length ∧
    ∀ j, j < metadata.length →
      clearSim ((metadataAfterQuery sim q vecs metadata k).getD j emptyDoc) =
        clearSim (metadata.getD j emptyDoc) ∧
      ((metadataAfterQuery sim q vecs metadata k).getD j emptyDoc =
          metadata.getD j emptyDoc ∨
        (metadataAfterQuery sim q vecs metadata k).getD j emptyDoc =
          setSim (metadata.getD j emptyDoc)
            (sim q (metadata.getD j emptyDoc).embedding)) ∧
      (j ∉ touchedPositions vecs metadata q k →
        (metadataAfterQuery sim q vecs metadata k).getD j emptyDoc =
          metadata.getD j emptyDoc) := by
  refine ⟨stampSim_length sim q _ metadata 0, ?_⟩
  intro j hj
  have hg := stampSim_getD sim q (touchedPositions vecs metadata q k)
    metadata 0 j hj
  simp only [Nat.zero_add] at hg
  unfold metadataAfterQuery
  rw [hg]
  by_cases ht : j ∈ touchedPositions vecs metadata q k
  · rw [if_pos ht]
    exact ⟨rfl, Or.inr rfl, fun hcon => absurd ht hcon⟩
  · rw [if_neg ht]
    exact ⟨rfl, Or.inl rfl, fun _ => rfl⟩

/-- C6 witness: the amended theorem applied at the concrete one-entry
index, position 0. -/
theorem c6_amended_witness :
    (0 : ℕ) < ([docU] : List Doc).length ∧
    clearSim ((metadataAfterQuery dotQ [1] [[1]] [docU] 1).getD 0 emptyDoc) =
      clearSim (([docU] : List Doc).getD 0 emptyDoc) :=
  ⟨by decide,
    ((c6_amended_query_mutates_only_similarity dotQ [1] [[1]] [docU] 1).2 0
      (by decide)).1⟩

/-- C7 counterexample: on the robots.txt body `"sitemap:a.xml"` — a
directive line with no `": "` separator — the comprehension element
`line.split(": ")[1]` raises an uncaught `IndexError`, so the resolver does
abort on this response body instead of falling back. -/
theorem c7_counterexample :
    fetch_sitemap_from_robots "https" "example.com" (some "sitemap:a.xml") =
      .error () := rfl

/-- C7 amended: on a network failure, or on a robots.txt body none of whose
lines passes the sitemap-directive filter, `fetch_sitemap_from_robots`
returns exactly `[scheme://host/sitemap.xml]`; however a passing directive
line that lacks the `": "` separator raises an uncaught `IndexError` (see
the counterexample), so the resolver does not survive every response
body. -/
theorem c7_amended_robots_fallback (scheme host : String)
    (resp : Option String) :
    (resp = none →
      fetch_sitemap_from_robots scheme host resp =
        .ok [defaultSitemap scheme host]) ∧
    (∀ body, resp = some body →
      (∀ l ∈ pySplit body "\n", robotsLinePasses l = false) →
      fetch_sitemap_from_robots scheme host resp =
        .ok [defaultSitemap scheme host]) := by
  constructor
  · intro h
    rw [h]
    rfl
  · intro body hb hlines
    rw [hb, fetch_sitemap_from_robots,
      robotsLoop_no_pass (pySplit body "\n") hlines]
    rfl

/-- C7 witness: the amended theorem applied to a robots.txt body with no
sitemap directive. -/
theorem c7_amended_witness :
    (∀ l ∈ pySplit "User-agent: *" "\n", robotsLinePasses l = false) ∧
    fetch_sitemap_from_robots "https" "example.com" (some "User-agent: *") =
      .ok [defaultSitemap "https" "example.com"] :=
  ⟨by decide,
    (c7_amended_robots_fallback "https" "example.com"
      (some "User-agent: *")).2 "User-agent: *" rfl (by decide)⟩

/-- C8: for every sitemap file processed by `fetch_sitemap_links`, the
extracted links exclude every `<loc>` entry ending in the compressed-archive
extension `".xml.gz"` (the only such extension the code and spec name), at
most 25 links are taken from any single sitemap file, and every link in the
aggregate result comes from the extraction of some successfully fetched
sitemap. -/
theorem c8_sitemap_links_filtered_and_capped (locs : List String)
    (resps : List SitemapResp) (links : List String) :
    (extractLocs locs).length ≤ 25 ∧
    (∀ l ∈ extractLocs locs, pyEndsWith l ".xml.gz" = false) ∧
    (fetch_sitemap_links resps = .ok links →
      ∀ l ∈ links, ∃ ls, SitemapResp.ok ls ∈ resps ∧ l ∈ extractLocs ls) := by
  refine ⟨List.length_take_le _ _, ?_, fetch_sitemap_links_mem resps links⟩
  intro l hl
  have h := List.mem_filter.mp (List.mem_of_mem_take hl)
  simpa using h.2

/-- C8 witness: the theorem applied to a one-sitemap batch containing an
archive entry and a plain entry. -/
theorem c8_witness :
    (extractLocs ["a.xml.gz", "b.xml"]).length ≤ 25 ∧
    (∀ l ∈ extractLocs ["a.xml.gz", "b.xml"],
      pyEndsWith l ".xml.gz" = false) ∧
    (∃ ls, SitemapResp.ok ls ∈ [SitemapResp.ok ["a.xml.gz", "b.xml"]] ∧
      "b.xml" ∈ extractLocs ls) :=
  ⟨(c8_sitemap_links_filtered_and_capped ["a.xml.gz", "b.xml"]
      [SitemapResp.ok ["a.xml.gz", "b.xml"]] ["b.xml"]).1,
    (c8_sitemap_links_filtered_and_capped ["a.xml.gz", "b.xml"]
      [SitemapResp.ok ["a.xml.gz", "b.xml"]] ["b.xml"]).2.1,
    (c8_sitemap_links_filtered_and_capped ["a.xml.gz", "b.xml"]
      [SitemapResp.ok ["a.xml.gz", "b.xml"]] ["b.xml"]).2.2 (by rfl)
      "b.xml" (by decide)⟩

/-- C9 counterexample: a parse failure on the first sitemap makes
`fetch_sitemap_links` raise (the `except` clause catches only
`requests.exceptions.RequestException`), aborting the batch and losing the
links of the remaining sitemap, contradicting the claim that the function
never raises and continues with the remaining sitemaps. -/
theorem c9_counterexample :
    fetch_sitemap_links [SitemapResp.parseFail, SitemapResp.ok ["a"]] =
      .error () := rfl

/-- C9 amended: only a NETWORK failure on an individual sitemap is skipped
with a non-fatal warning, with processing continuing on the remaining
sitemaps; a parse failure on any sitemap in the batch propagates as an
uncaught exception and aborts the whole call. -/
theorem c9_amended_only_network_failures_skipped :
    (∀ pre post : List SitemapResp,
      fetch_sitemap_links (pre ++ SitemapResp.netFail :: post) =
        fetch_sitemap_links (pre ++ post)) ∧
    (∀ resps : List SitemapResp, SitemapResp.parseFail ∈ resps →
      fetch_sitemap_links resps = .error ()) := by
  constructor
  · intro pre
    induction pre with
    | nil => intro post; rfl
    | cons r rs ih =>
      intro post
      simp only [List.cons_append]
      cases r with
      | netFail => rw [fetch_sitemap_links, fetch_sitemap_links, ih post]
      | parseFail => rfl
      | ok locs => rw [fetch_sitemap_links, fetch_sitemap_links, ih post]
  · intro resps
    induction resps with
    | nil => intro h; simp at h
    | cons r rs ih =>
      intro h
      cases r with
      | netFail =>
        rw [fetch_sitemap_links]
        refine ih ?_
        rcases List.mem_cons.mp h with h' | h'
        · exact absurd h' (by simp)
        · exact h'
      | parseFail => rfl
      | ok locs =>
        rw [fetch_sitemap_links]
        have hmem : SitemapResp.parseFail ∈ rs := by
          rcases List.mem_cons.mp h with h' | h'
          · exact absurd h' (by simp)
          · exact h'
        rw [ih hmem]

/-- C9 witness: the amended theorem applied to a singleton parse-failing
batch and to a network failure in front of a successful sitemap. -/
theorem c9_amended_witness :
    fetch_sitemap_links
        ([] ++ SitemapResp.netFail :: [SitemapResp.ok ["a"]]) =
      fetch_sitemap_links ([] ++ [SitemapResp.ok ["a"]]) ∧
    (SitemapResp.parseFail ∈ [SitemapResp.parseFail] ∧
      fetch_sitemap_links [SitemapResp.parseFail] = .error ()) :=
  ⟨c9_amended_only_network_failures_skipped.1 [] [SitemapResp.ok ["a"]],
    by decide,
    c9_amended_only_network_failures_skipped.2 [SitemapResp.parseFail]
      (by decide)⟩

/-- C10: a PageRecord whose content is empty or whitespace-only yields zero
chunks, and such a record — like any record tagged with an error —
contributes nothing to the index or the metadata list: removing it from the
scraped batch leaves the result of `fetch_and_store_scraped_data`
unchanged. -/
theorem c10_blank_or_error_record_excluded (svc : String → ℕ → Option Vec)
    (pre post : List PageData) (r : PageData)
    (h : (∀ c ∈ r.content.data, isPySpace c = true) ∨ r.error ≠ none) :
    ((∀ c ∈ r.content.data, isPySpace c = true) → chunk_text r.content = []) ∧
    fetch_and_store_scraped_data svc (pre ++ r :: post) =
      fetch_and_store_scraped_data svc (pre ++ post) := by
  refine ⟨chunk_text_ws r.content, ?_⟩
  unfold fetch_and_store_scraped_data
  by_cases hpp : pre ++ post = []
  · obtain ⟨hpre, hpost⟩ := List.append_eq_nil.mp hpp
    subst hpre
    subst hpost
    simp only [List.nil_append]
    rw [if_neg (by simp : ¬(r :: [] : List PageData) = []), if_true]
    have hskip := processRecords_skip svc r h [] [] ([], [])
    simp only [List.nil_append] at hskip
    rw [hskip, processRecords]
    rfl
  · rw [if_neg (by simp : ¬(pre ++ r :: post : List PageData) = []),
      if_neg hpp, processRecords_skip svc r h pre post ([], [])]

/-- C10 witness: the theorem applied to a record whose content is a single
space, inserted into an otherwise empty batch. -/
theorem c10_witness :
    ((∀ c ∈ pageBlank.content.data, isPySpace c = true) ∨
      pageBlank.error ≠ none) ∧
    chunk_text pageBlank.content = [] ∧
    fetch_and_store_scraped_data svcOne ([] ++ pageBlank :: []) =
      fetch_and_store_scraped_data svcOne ([] ++ []) :=
  ⟨by decide,
    (c10_blank_or_error_record_excluded svcOne [] [] pageBlank
      (by decide)).1 (by decide),
    (c10_blank_or_error_record_excluded svcOne [] [] pageBlank
      (by decide)).2⟩
